import Mathlib

/-!
Shallow embedding of `pokergame.py`, a Texas Hold'em showdown evaluator.

Python hand scores are heterogeneous tuples mixing ints and lists of ints;
we embed each tuple element as `PyVal` and a score as `List PyVal`.
Python comparison of such tuples is partial (comparing an int with a list
raises `TypeError`), so the embedded comparison `tupleCmp` returns
`Option Ordering`, with `none` standing for the raised exception.
Likewise, functions that can raise (`evaluate_5` via `IndexError` or
`ValueError`, `best_hand` via a propagated exception) return `Option`.
-/

/-- One element of a Python score tuple: either an int or a list of ints. -/
inductive PyVal where
  | int : Nat → PyVal
  | list : List Nat → PyVal
deriving DecidableEq, Repr

/-- A hand score: the Python tuple returned by `evaluate_5`. -/
abbrev Score := List PyVal

/-- Shorthand for an int score element. -/
def I (n : Nat) : PyVal := PyVal.int n

/-- Shorthand for a list score element. -/
def L (l : List Nat) : PyVal := PyVal.list l

/-- A playing card: `rank` 2..14, `suit` one of four symbols (encoded 0..3). -/
structure Card where
  rank : Nat
  suit : Nat
deriving DecidableEq, Repr

/-- Python `<`-comparison of two ints, as an `Ordering`. -/
def natCmp (a b : Nat) : Ordering :=
  if a < b then .lt else if b < a then .gt else .eq

/-- Python lexicographic comparison of two lists of ints. -/
def listCmp : List Nat → List Nat → Ordering
  | [], [] => .eq
  | [], _ :: _ => .lt
  | _ :: _, [] => .gt
  | a :: xs, b :: ys =>
    match natCmp a b with
    | .eq => listCmp xs ys
    | o => o

/-- Python comparison of two score elements; `none` models `TypeError`
(comparing an int with a list). -/
def pyValCmp : PyVal → PyVal → Option Ordering
  | .int a, .int b => some (natCmp a b)
  | .list a, .list b => some (listCmp a b)
  | _, _ => none

/-- Python lexicographic comparison of two score tuples; `none` models a
`TypeError` raised at the first position holding an int on one side and a
list on the other, with all earlier positions equal. -/
def tupleCmp : Score → Score → Option Ordering
  | [], [] => some .eq
  | [], _ :: _ => some .lt
  | _ :: _, [] => some .gt
  | x :: xs, y :: ys =>
    match pyValCmp x y with
    | none => none
    | some .eq => tupleCmp xs ys
    | some o => some o

/-- Score `s` compares less-or-equal to `t` under Python tuple comparison. -/
def scoreLe (s t : Score) : Prop :=
  tupleCmp s t = some .lt ∨ tupleCmp s t = some .eq

/-- Descending order on naturals, used for Python `sorted(..., reverse=True)`. -/
def geNat (a b : Nat) : Prop := b ≤ a

instance : DecidableRel geNat := fun a b => Nat.decLe b a

instance : IsTotal Nat geNat := ⟨fun a b => by unfold geNat; omega⟩

instance : IsTrans Nat geNat := ⟨fun a b c h1 h2 => by unfold geNat at *; omega⟩

instance : IsAntisymm Nat geNat :=
  ⟨fun a b h1 h2 => by unfold geNat at *; omega⟩

/-- Descending lexicographic order on `(freq, rank)` pairs, used for
Python `sorted(((freq, rank) ...), reverse=True)`. -/
def pairGE (a b : Nat × Nat) : Prop := b.1 < a.1 ∨ (b.1 = a.1 ∧ b.2 ≤ a.2)

instance : DecidableRel pairGE := fun a b => by unfold pairGE; exact inferInstance

instance : IsTotal (Nat × Nat) pairGE :=
  ⟨by rintro ⟨a1, a2⟩ ⟨b1, b2⟩; unfold pairGE; dsimp only; omega⟩

instance : IsTrans (Nat × Nat) pairGE :=
  ⟨by rintro ⟨a1, a2⟩ ⟨b1, b2⟩ ⟨c1, c2⟩ h1 h2; unfold pairGE at *; dsimp only at *; omega⟩

instance : IsAntisymm (Nat × Nat) pairGE := by
  constructor
  rintro ⟨a1, a2⟩ ⟨b1, b2⟩ h1 h2
  unfold pairGE at *
  dsimp only at *
  have e1 : a1 = b1 := by omega
  have e2 : a2 = b2 := by omega
  rw [e1, e2]

/-- Python `sorted(l, reverse=True)` on a list of ints. -/
def sortDesc (l : List Nat) : List Nat := List.insertionSort geNat l

/-- Python `sorted(set(l))`: the distinct values of `l` in ascending order. -/
def sortedUniq (l : List Nat) : List Nat := List.insertionSort (· ≤ ·) l.dedup

/-- Python `max(iterable)` on ints; `none` models the `ValueError` raised on
an empty iterable. -/
def maxList : List Nat → Option Nat
  | [] => none
  | x :: xs => some (xs.foldl max x)

/-- The sliding-window loop of `is_straight`: on the ascending list of
distinct ranks, return the top of the first window of 5 values whose
max − min = 4, scanning from the low end. -/
def windowScan : List Nat → Option Nat
  | a :: b :: c :: d :: e :: rest =>
    if e - a = 4 then some e else windowScan (b :: c :: d :: e :: rest)
  | _ => none

/-- Embedding of `is_straight(ranks)`: `(False, None)` when fewer than 5
distinct ranks; otherwise the first sliding window of 5 consecutive distinct
ranks, with the wheel A-2-3-4-5 (top 5) as fallback. -/
def is_straight (ranks : List Nat) : Bool × Option Nat :=
  let s := sortedUniq ranks
  if s.length < 5 then (false, none)
  else
    match windowScan s with
    | some t => (true, some t)
    | none =>
      if 14 ∈ s ∧ 2 ∈ s ∧ 3 ∈ s ∧ 4 ∈ s ∧ 5 ∈ s then (true, some 5)
      else (false, none)

/-- Embedding of `counts_by_freq`: the `(freq, rank)` pairs of the distinct
ranks, sorted descending lexicographically. -/
def countsByFreq (ranks : List Nat) : List (Nat × Nat) :=
  List.insertionSort pairGE ((sortedUniq ranks).map fun r => (ranks.count r, r))

/-- Embedding of `freqs`: the multiplicities of the distinct ranks, sorted
descending. -/
def freqsOf (ranks : List Nat) : List Nat :=
  List.insertionSort geNat ((sortedUniq ranks).map fun r => ranks.count r)

/-- Rank component of `counts_by_freq[i]`. -/
def rankAt (ranks : List Nat) (i : Nat) : Nat := ((countsByFreq ranks).getD i (0, 0)).2

/-- Body of `evaluate_5` as a function of the rank and suit lists.  The
classification cascade follows the Python source line by line; `none`
models a raised exception (`IndexError` on `freqs[0]`/`freqs[1]`,
`ValueError` on `max` of an empty generator). -/
def evalCore (ranks suits : List Nat) : Option Score :=
  if suits.dedup.length = 1 ∧ (is_straight ranks).1 = true then
    some [I 9, I ((is_straight ranks).2.getD 0)]
  else
    match freqsOf ranks with
    | [] => none
    | f0 :: tf =>
      if f0 = 4 then
        match maxList (ranks.filter fun r => r ≠ rankAt ranks 0) with
        | none => none
        | some kicker => some [I 8, I (rankAt ranks 0), I kicker]
      else if f0 = 3 ∧ tf = [] then none
      else if f0 = 3 ∧ tf.headD 0 = 2 then
        some [I 7, I (rankAt ranks 0), I (rankAt ranks 1)]
      else if suits.dedup.length = 1 then
        some [I 6, L (sortDesc ranks)]
      else if (is_straight ranks).1 = true then
        some [I 5, I ((is_straight ranks).2.getD 0)]
      else if f0 = 3 then
        some [I 4, I (rankAt ranks 0),
              L (sortDesc (ranks.filter fun r => r ≠ rankAt ranks 0))]
      else if f0 = 2 ∧ tf = [] then none
      else if f0 = 2 ∧ tf.headD 0 = 2 then
        match maxList (ranks.filter fun r => ranks.count r = 1) with
        | none => none
        | some kicker =>
          some [I 3,
                I ((sortDesc ((sortedUniq ranks).filter
                      fun r => ranks.count r = 2)).getD 0 0),
                I ((sortDesc ((sortedUniq ranks).filter
                      fun r => ranks.count r = 2)).getD 1 0),
                I kicker]
      else if f0 = 2 then
        some [I 2, I (rankAt ranks 0),
              L (sortDesc (ranks.filter fun r => r ≠ rankAt ranks 0))]
      else
        some [I 1, L (sortDesc ranks)]

/-- Embedding of `evaluate_5(cards)`. -/
def evaluate_5 (cards : List Card) : Option Score :=
  evalCore (cards.map Card.rank) (cards.map Card.suit)

/-- Embedding of `itertools.combinations(l, n)`: all length-`n`
subsequences of `l`, in the order the Python iterator emits them. -/
def combinations : Nat → List α → List (List α)
  | 0, _ => [[]]
  | _ + 1, [] => []
  | n + 1, x :: xs => ((combinations n xs).map (x :: ·)) ++ combinations (n + 1) xs

/-- The accumulation loop of `best_hand`: the outer `none` models a raised
exception (from `evaluate_5` or from the `val > best` comparison); the
inner `none` is Python's initial `best = None`. -/
def bhFold : List (List Card) → Option (Score × List Card) →
    Option (Option (Score × List Card))
  | [], acc => some acc
  | combo :: rest, acc =>
    match evaluate_5 combo with
    | none => none
    | some val =>
      match acc with
      | none => bhFold rest (some (val, combo))
      | some (b, bc) =>
        match tupleCmp val b with
        | none => none
        | some .gt => bhFold rest (some (val, combo))
        | some _ => bhFold rest (some (b, bc))

/-- Embedding of `best_hand(seven_cards)`: `some none` is Python's
`(None, None)` result (no combination at all), `some (some (s, c))` a
normal result, `none` a raised exception. -/
def best_hand (cards : List Card) : Option (Option (Score × List Card)) :=
  bhFold (combinations 5 cards) none

/-- Accumulation loop of Python `max` over scores, keeping the current
maximum and replacing it when an item compares strictly greater; `none`
models a `TypeError` from an undefined comparison. -/
def pyMaxFold : Score → List Score → Option Score
  | cur, [] => some cur
  | cur, x :: xs =>
    match tupleCmp x cur with
    | none => none
    | some .gt => pyMaxFold x xs
    | some _ => pyMaxFold cur xs

/-- Python `max` over a list of scores; `none` on an empty list
(`ValueError`) or on an undefined comparison (`TypeError`). -/
def pyMax : List Score → Option Score
  | [] => none
  | x :: xs => pyMaxFold x xs

/-- Embedding of the showdown lines of `main`: compute the maximum score,
then keep, in insertion order, the players whose score equals it. -/
def winnersOf (results : List (Nat × Score)) : Option (List Nat) :=
  match pyMax (results.map Prod.snd) with
  | none => none
  | some best => some ((results.filter fun pr => pr.2 = best).map Prod.fst)

/-- The nine shapes a score returned by `evaluate_5` on five cards can
take: the category determines the tuple length, the type of every element,
and the length of every list element. -/
inductive ScoreShape : Score → Prop where
  | sf (t : Nat) : ScoreShape [I 9, I t]
  | four (q k : Nat) : ScoreShape [I 8, I q, I k]
  | fh (t p : Nat) : ScoreShape [I 7, I t, I p]
  | flush (l : List Nat) (h : l.length = 5) : ScoreShape [I 6, L l]
  | straight (t : Nat) : ScoreShape [I 5, I t]
  | three (t : Nat) (l : List Nat) (h : l.length = 2) : ScoreShape [I 4, I t, L l]
  | twopair (a b k : Nat) : ScoreShape [I 3, I a, I b, I k]
  | pair (p : Nat) (l : List Nat) (h : l.length = 3) : ScoreShape [I 2, I p, L l]
  | high (l : List Nat) (h : l.length = 5) : ScoreShape [I 1, L l]

/-- A window of five consecutive ranks starting at `a` is present in the
rank list. -/
def winTop (ranks : List Nat) (a : Nat) : Prop := ∀ k ≤ 4, a + k ∈ ranks

instance (ranks : List Nat) (a : Nat) : Decidable (winTop ranks a) := by
  unfold winTop
  exact inferInstance

/-! ### Basic facts about the embedded Python comparisons -/

theorem natCmp_self (a : Nat) : natCmp a a = .eq := by
  unfold natCmp; simp

theorem natCmp_eq_iff {a b : Nat} : natCmp a b = .eq ↔ a = b := by
  unfold natCmp
  split_ifs with h1 h2
  · exact iff_of_false (by simp) (by omega)
  · exact iff_of_false (by simp) (by omega)
  · exact iff_of_true rfl (by omega)

theorem natCmp_lt_iff {a b : Nat} : natCmp a b = .lt ↔ a < b := by
  unfold natCmp
  split_ifs with h1 h2
  · exact iff_of_true rfl h1
  · exact iff_of_false (by simp) (by omega)
  · exact iff_of_false (by simp) (by omega)

theorem natCmp_swap (a b : Nat) : natCmp b a = (natCmp a b).swap := by
  unfold natCmp
  split_ifs <;> first | rfl | (exfalso; omega)

theorem natCmp_lt_trans {a b c : Nat} (h1 : natCmp a b = .lt)
    (h2 : natCmp b c = .lt) : natCmp a c = .lt := by
  rw [natCmp_lt_iff] at *
  omega

theorem listCmp_self (l : List Nat) : listCmp l l = .eq := by
  induction l with
  | nil => rfl
  | cons a xs ih => simp [listCmp, natCmp_self, ih]

theorem listCmp_eq_iff : ∀ {l m : List Nat}, listCmp l m = .eq ↔ l = m := by
  intro l
  induction l with
  | nil => intro m; cases m <;> simp [listCmp]
  | cons a xs ih =>
    intro m
    cases m with
    | nil => simp [listCmp]
    | cons b ys =>
      simp only [listCmp]
      rcases h : natCmp a b with _ | _ | _
      · simp only [h]
        exact iff_of_false (by simp) (by
          intro he
          injection he with h1 h2
          rw [h1, natCmp_self] at h
          cases h)
      · have hab : a = b := natCmp_eq_iff.mp h
        simp only [h, hab, ih]
        constructor
        · intro he; rw [he]
        · intro he; injection he
      · simp only [h]
        exact iff_of_false (by simp) (by
          intro he
          injection he with h1 h2
          rw [h1, natCmp_self] at h
          cases h)

theorem listCmp_swap : ∀ (l m : List Nat), listCmp m l = (listCmp l m).swap := by
  intro l
  induction l with
  | nil => intro m; cases m <;> rfl
  | cons a xs ih =>
    intro m
    cases m with
    | nil => rfl
    | cons b ys =>
      simp only [listCmp, natCmp_swap a b]
      rcases natCmp a b with _ | _ | _
      · rfl
      · simpa [Ordering.swap] using ih ys
      · rfl

theorem listCmp_lt_trans : ∀ {l m n : List Nat}, listCmp l m = .lt →
    listCmp m n = .lt → listCmp l n = .lt := by
  intro l
  induction l with
  | nil =>
    intro m n h1 h2
    cases m with
    | nil => cases n <;> simp_all [listCmp]
    | cons b ys => cases n <;> simp_all [listCmp]
  | cons a xs ih =>
    intro m n h1 h2
    cases m with
    | nil => simp [listCmp] at h1
    | cons b ys =>
      cases n with
      | nil => simp [listCmp] at h2
      | cons c zs =>
        simp only [listCmp] at h1 h2 ⊢
        rcases hab : natCmp a b with _ | _ | _ <;> rw [hab] at h1
        · rcases hbc : natCmp b c with _ | _ | _ <;> rw [hbc] at h2
          · rw [natCmp_lt_trans hab hbc]
          · rw [← natCmp_eq_iff.mp hbc, hab]
          · cases h2
        · rcases hbc : natCmp b c with _ | _ | _ <;> rw [hbc] at h2
          · rw [natCmp_eq_iff.mp hab, hbc]
          · have : natCmp a c = .eq := by
              rw [natCmp_eq_iff.mp hab, hbc]
            rw [this]
            exact ih h1 h2
          · cases h2
        · cases h1

theorem pyValCmp_self (x : PyVal) : pyValCmp x x = some .eq := by
  cases x <;> simp [pyValCmp, natCmp_self, listCmp_self]

theorem pyValCmp_eq_iff {x y : PyVal} : pyValCmp x y = some .eq ↔ x = y := by
  cases x <;> cases y <;> simp [pyValCmp, natCmp_eq_iff, listCmp_eq_iff]

theorem pyValCmp_swap (x y : PyVal) :
    pyValCmp y x = (pyValCmp x y).map Ordering.swap := by
  cases x with
  | int a =>
    cases y with
    | int b =>
      show some (natCmp b a) = _
      rw [natCmp_swap a b]
      rfl
    | list m => rfl
  | list l =>
    cases y with
    | int b => rfl
    | list m =>
      show some (listCmp m l) = _
      rw [listCmp_swap l m]
      rfl

theorem pyValCmp_lt_trans {x y z : PyVal} (h1 : pyValCmp x y = some .lt)
    (h2 : pyValCmp y z = some .lt) : pyValCmp x z = some .lt := by
  cases x <;> cases y <;> cases z <;> simp_all [pyValCmp]
  · exact natCmp_lt_trans h1 h2
  · exact listCmp_lt_trans h1 h2

theorem tupleCmp_self (s : Score) : tupleCmp s s = some .eq := by
  induction s with
  | nil => rfl
  | cons x xs ih => simp [tupleCmp, pyValCmp_self, ih]

theorem tupleCmp_eq_iff : ∀ {s t : Score}, tupleCmp s t = some .eq ↔ s = t := by
  intro s
  induction s with
  | nil => intro t; cases t <;> simp [tupleCmp]
  | cons x xs ih =>
    intro t
    cases t with
    | nil => simp [tupleCmp]
    | cons y ys =>
      simp only [tupleCmp]
      rcases h : pyValCmp x y with _ | o
      · exact iff_of_false (by simp) (by
          intro he
          injection he with h1 h2
          rw [h1, pyValCmp_self] at h
          cases h)
      · rcases o with _ | _ | _
        · simp only []
          exact iff_of_false (by simp) (by
            intro he
            injection he with h1 h2
            rw [h1, pyValCmp_self] at h
            injection h with h
            cases h)
        · have hxy : x = y := pyValCmp_eq_iff.mp h
          simp only [hxy, ih]
          constructor
          · intro he; rw [he]
          · intro he; injection he
        · simp only []
          exact iff_of_false (by simp) (by
            intro he
            injection he with h1 h2
            rw [h1, pyValCmp_self] at h
            injection h with h
            cases h)

theorem tupleCmp_swap : ∀ (s t : Score), tupleCmp t s = (tupleCmp s t).map Ordering.swap := by
  intro s
  induction s with
  | nil => intro t; cases t <;> rfl
  | cons x xs ih =>
    intro t
    cases t with
    | nil => rfl
    | cons y ys =>
      simp only [tupleCmp, pyValCmp_swap x y]
      rcases pyValCmp x y with _ | o
      · rfl
      · rcases o with _ | _ | _
        · rfl
        · simpa [Ordering.swap] using ih ys
        · rfl

theorem tupleCmp_cons_lt_iff {x y : PyVal} {xs ys : Score} :
    tupleCmp (x :: xs) (y :: ys) = some .lt ↔
      pyValCmp x y = some .lt ∨
        (pyValCmp x y = some .eq ∧ tupleCmp xs ys = some .lt) := by
  simp only [tupleCmp]
  rcases pyValCmp x y with _ | (_ | _ | _) <;> simp

theorem tupleCmp_lt_trans : ∀ {s t u : Score}, tupleCmp s t = some .lt →
    tupleCmp t u = some .lt → tupleCmp s u = some .lt := by
  intro s
  induction s with
  | nil =>
    intro t u h1 h2
    cases t with
    | nil => simp [tupleCmp] at h1
    | cons y ys =>
      cases u with
      | nil => simp [tupleCmp] at h2
      | cons z zs => simp [tupleCmp]
  | cons x xs ih =>
    intro t u h1 h2
    cases t with
    | nil => simp [tupleCmp] at h1
    | cons y ys =>
      cases u with
      | nil => simp [tupleCmp] at h2
      | cons z zs =>
        rw [tupleCmp_cons_lt_iff] at h1 h2 ⊢
        rcases h1 with h1 | ⟨h1e, h1t⟩
        · rcases h2 with h2 | ⟨h2e, h2t⟩
          · exact Or.inl (pyValCmp_lt_trans h1 h2)
          · exact Or.inl (pyValCmp_eq_iff.mp h2e ▸ h1)
        · rcases h2 with h2 | ⟨h2e, h2t⟩
          · refine Or.inl ?_
            rw [pyValCmp_eq_iff.mp h1e]
            exact h2
          · refine Or.inr ⟨?_, ih h1t h2t⟩
            rw [pyValCmp_eq_iff.mp h1e]
            exact h2e

/-! ### Order facts for `scoreLe` and totality on well-shaped scores -/

theorem scoreLe_refl (s : Score) : scoreLe s s := Or.inr (tupleCmp_self s)

theorem scoreLe_trans {s t u : Score} (h1 : scoreLe s t) (h2 : scoreLe t u) :
    scoreLe s u := by
  rcases h1 with h1 | h1
  · rcases h2 with h2 | h2
    · exact Or.inl (tupleCmp_lt_trans h1 h2)
    · have : t = u := tupleCmp_eq_iff.mp h2
      exact Or.inl (this ▸ h1)
  · have : s = t := tupleCmp_eq_iff.mp h1
    rw [this]
    exact h2

theorem scoreLe_antisymm {s t : Score} (h1 : scoreLe s t) (h2 : scoreLe t s) :
    s = t := by
  rcases h2 with h2 | h2
  · rcases h1 with h1 | h1
    · have hs := tupleCmp_swap s t
      rw [h1] at hs
      rw [hs] at h2
      cases h2
    · exact tupleCmp_eq_iff.mp h1
  · exact (tupleCmp_eq_iff.mp h2).symm

theorem scoreLe_of_gt {s t : Score} (h : tupleCmp s t = some .gt) : scoreLe t s := by
  have hs := tupleCmp_swap s t
  rw [h] at hs
  exact Or.inl hs

theorem scoreLe_of_cmp {s t : Score} {o : Ordering} (h : tupleCmp s t = some o)
    (ho : o ≠ .gt) : scoreLe s t := by
  rcases o with _ | _ | _
  · exact Or.inl h
  · exact Or.inr h
  · exact absurd rfl ho

theorem tupleCmp_nil_left (ys : Score) : (tupleCmp [] ys).isSome = true := by
  cases ys <;> rfl

theorem total_int_cons {xs ys : Score} {a b : Nat}
    (h : (tupleCmp xs ys).isSome = true) :
    (tupleCmp (I a :: xs) (I b :: ys)).isSome = true := by
  cases hn : natCmp a b <;> simp [tupleCmp, pyValCmp, I, hn, h]

theorem total_list_cons {xs ys : Score} {a b : List Nat}
    (h : (tupleCmp xs ys).isSome = true) :
    (tupleCmp (L a :: xs) (L b :: ys)).isSome = true := by
  cases hn : listCmp a b <;> simp [tupleCmp, pyValCmp, L, hn, h]

theorem total_int_ne {xs ys : Score} {a b : Nat} (h : natCmp a b ≠ .eq) :
    (tupleCmp (I a :: xs) (I b :: ys)).isSome = true := by
  cases hn : natCmp a b
  · simp [tupleCmp, pyValCmp, I, hn]
  · exact absurd hn h
  · simp [tupleCmp, pyValCmp, I, hn]

/-- Any two well-shaped scores are comparable: Python tuple comparison of
two `evaluate_5` results never raises `TypeError`. -/
theorem shape_total {s t : Score} (h1 : ScoreShape s) (h2 : ScoreShape t) :
    (tupleCmp s t).isSome = true := by
  cases h1 <;> cases h2 <;>
    first
    | exact total_int_ne (by decide)
    | (repeat (first | apply total_int_cons | apply total_list_cons))
      exact tupleCmp_nil_left _

/-! ### Facts about `maxList` (Python `max`) -/

theorem foldl_max_le : ∀ (xs : List Nat) (a : Nat), a ≤ xs.foldl max a := by
  intro xs
  induction xs with
  | nil => intro a; simp
  | cons x xs ih =>
    intro a
    simp only [List.foldl_cons]
    exact le_trans (Nat.le_max_left a x) (ih (max a x))

theorem foldl_max_mem_le : ∀ (xs : List Nat) (a x : Nat), x ∈ xs →
    x ≤ xs.foldl max a := by
  intro xs
  induction xs with
  | nil => intro a x hx; cases hx
  | cons y ys ih =>
    intro a x hx
    simp only [List.foldl_cons]
    rcases List.mem_cons.mp hx with h | h
    · subst h
      exact le_trans (Nat.le_max_right a x) (foldl_max_le ys (max a x))
    · exact ih (max a y) x h

theorem foldl_max_cases : ∀ (xs : List Nat) (a : Nat),
    xs.foldl max a = a ∨ xs.foldl max a ∈ xs := by
  intro xs
  induction xs with
  | nil => intro a; exact Or.inl rfl
  | cons x xs ih =>
    intro a
    simp only [List.foldl_cons]
    rcases ih (max a x) with h | h
    · rcases max_choice a x with hm | hm
      · exact Or.inl (by rw [h, hm])
      · exact Or.inr (by rw [h, hm]; exact List.mem_cons_self x xs)
    · exact Or.inr (List.mem_cons_of_mem x h)

theorem maxList_spec {l : List Nat} {m : Nat} (h : maxList l = some m) :
    m ∈ l ∧ ∀ x ∈ l, x ≤ m := by
  cases l with
  | nil => cases h
  | cons x xs =>
    simp only [maxList, Option.some_inj] at h
    subst h
    constructor
    · rcases foldl_max_cases xs x with h | h
      · rw [h]; exact List.mem_cons_self x xs
      · exact List.mem_cons_of_mem x h
    · intro y hy
      rcases List.mem_cons.mp hy with h | h
      · subst h; exact foldl_max_le xs y
      · exact foldl_max_mem_le xs x y h

theorem maxList_isSome {l : List Nat} (h : l ≠ []) : ∃ m, maxList l = some m := by
  cases l with
  | nil => exact absurd rfl h
  | cons x xs => exact ⟨xs.foldl max x, rfl⟩

theorem maxList_perm {l1 l2 : List Nat} (h : l1.Perm l2) : maxList l1 = maxList l2 := by
  cases l1 with
  | nil =>
    have : l2 = [] := h.nil_eq.symm
    rw [this]
  | cons x xs =>
    cases l2 with
    | nil => exact absurd h.symm.nil_eq (by simp)
    | cons y ys =>
      obtain ⟨m1, h1⟩ := maxList_isSome (show x :: xs ≠ [] by simp)
      obtain ⟨m2, h2⟩ := maxList_isSome (show y :: ys ≠ [] by simp)
      obtain ⟨hm1, hle1⟩ := maxList_spec h1
      obtain ⟨hm2, hle2⟩ := maxList_spec h2
      rw [h1, h2]
      have e1 : m1 ≤ m2 := hle2 m1 (h.mem_iff.mp hm1)
      have e2 : m2 ≤ m1 := hle1 m2 (h.mem_iff.mpr hm2)
      rw [Nat.le_antisymm e1 e2]

/-! ### Facts about the embedded sorts -/

theorem sortDesc_perm (l : List Nat) : (sortDesc l).Perm l := List.perm_insertionSort _ _

theorem sortDesc_eq_of_perm {l1 l2 : List Nat} (h : l1.Perm l2) :
    sortDesc l1 = sortDesc l2 :=
  List.eq_of_perm_of_sorted ((sortDesc_perm l1).trans (h.trans (sortDesc_perm l2).symm))
    (List.sorted_insertionSort _ _) (List.sorted_insertionSort _ _)

theorem sortDesc_length (l : List Nat) : (sortDesc l).length = l.length :=
  (sortDesc_perm l).length_eq

theorem sortedUniq_perm_dedup (l : List Nat) : (sortedUniq l).Perm l.dedup :=
  List.perm_insertionSort _ _

theorem sortedUniq_eq_of_perm {l1 l2 : List Nat} (h : l1.Perm l2) :
    sortedUniq l1 = sortedUniq l2 :=
  List.eq_of_perm_of_sorted
    ((sortedUniq_perm_dedup l1).trans (h.dedup.trans (sortedUniq_perm_dedup l2).symm))
    (List.sorted_insertionSort _ _) (List.sorted_insertionSort _ _)

theorem mem_sortedUniq {l : List Nat} {x : Nat} : x ∈ sortedUniq l ↔ x ∈ l := by
  rw [(sortedUniq_perm_dedup l).mem_iff, List.mem_dedup]

theorem sortedUniq_nodup (l : List Nat) : (sortedUniq l).Nodup :=
  (sortedUniq_perm_dedup l).nodup_iff.mpr l.nodup_dedup

theorem sortedUniq_sorted_le (l : List Nat) : (sortedUniq l).Sorted (· ≤ ·) :=
  List.sorted_insertionSort _ _

theorem sortedUniq_sorted_lt (l : List Nat) : (sortedUniq l).Sorted (· < ·) := by
  have h1 : (sortedUniq l).Pairwise (· ≤ ·) := sortedUniq_sorted_le l
  have h2 : (sortedUniq l).Pairwise (· ≠ ·) := sortedUniq_nodup l
  exact (h1.and h2).imp fun h => lt_of_le_of_ne h.1 h.2

/-! ### Structure of `freqsOf` and `countsByFreq` -/

theorem freqsOf_perm (ranks : List Nat) :
    (freqsOf ranks).Perm ((sortedUniq ranks).map fun r => ranks.count r) :=
  List.perm_insertionSort _ _

theorem countsByFreq_perm (ranks : List Nat) :
    (countsByFreq ranks).Perm ((sortedUniq ranks).map fun r => (ranks.count r, r)) :=
  List.perm_insertionSort _ _

theorem freqsOf_sorted (ranks : List Nat) : (freqsOf ranks).Sorted geNat :=
  List.sorted_insertionSort _ _

theorem countsByFreq_sorted (ranks : List Nat) : (countsByFreq ranks).Sorted pairGE :=
  List.sorted_insertionSort _ _

theorem freqsOf_length (ranks : List Nat) :
    (freqsOf ranks).length = (sortedUniq ranks).length := by
  rw [(freqsOf_perm ranks).length_eq, List.length_map]

theorem countsByFreq_length (ranks : List Nat) :
    (countsByFreq ranks).length = (sortedUniq ranks).length := by
  rw [(countsByFreq_perm ranks).length_eq, List.length_map]

theorem freqs_head_max {ranks : List Nat} {f0 : Nat} {tf : List Nat}
    (hf : freqsOf ranks = f0 :: tf) : ∀ r ∈ ranks, ranks.count r ≤ f0 := by
  intro r hr
  have hmem : ranks.count r ∈ freqsOf ranks := by
    rw [(freqsOf_perm ranks).mem_iff]
    exact List.mem_map_of_mem _ (mem_sortedUniq.mpr hr)
  rw [hf] at hmem
  rcases List.mem_cons.mp hmem with h | h
  · omega
  · have hs : List.Sorted geNat (f0 :: tf) := hf ▸ freqsOf_sorted ranks
    exact List.rel_of_sorted_cons hs _ h

theorem countsByFreq_head {ranks : List Nat} {f0 : Nat} {tf : List Nat}
    (hf : freqsOf ranks = f0 :: tf) :
    ∃ r0 ctf, countsByFreq ranks = (f0, r0) :: ctf ∧
      ranks.count r0 = f0 ∧ r0 ∈ ranks := by
  obtain ⟨p, ctf, hc⟩ : ∃ p ctf, countsByFreq ranks = p :: ctf := by
    have hl : (countsByFreq ranks).length = tf.length + 1 := by
      rw [countsByFreq_length, ← freqsOf_length, hf, List.length_cons]
    cases hcb : countsByFreq ranks with
    | nil => rw [hcb] at hl; cases hl
    | cons p ctf => exact ⟨p, ctf, rfl⟩
  obtain ⟨g, r0⟩ := p
  have hmem : (g, r0) ∈ (sortedUniq ranks).map fun r => (ranks.count r, r) := by
    rw [← (countsByFreq_perm ranks).mem_iff, hc]
    exact List.mem_cons_self _ _
  obtain ⟨r, hrmem, hreq⟩ := List.mem_map.mp hmem
  have he1 : ranks.count r = g := congrArg Prod.fst hreq
  have he2 : r = r0 := congrArg Prod.snd hreq
  subst he2
  have hg_le : g ≤ f0 := by
    rw [← he1]
    exact freqs_head_max hf r (mem_sortedUniq.mp hrmem)
  have hf0_le : f0 ≤ g := by
    have hf0 : f0 ∈ freqsOf ranks := by
      rw [hf]
      exact List.mem_cons_self _ _
    rw [(freqsOf_perm ranks).mem_iff] at hf0
    obtain ⟨r1, hr1, hr1e⟩ := List.mem_map.mp hf0
    have hp : (ranks.count r1, r1) ∈ countsByFreq ranks := by
      rw [(countsByFreq_perm ranks).mem_iff]
      exact List.mem_map_of_mem _ hr1
    rw [hc] at hp
    rcases List.mem_cons.mp hp with h | h
    · have hfst : ranks.count r1 = g := congrArg Prod.fst h
      omega
    · have hge := List.rel_of_sorted_cons (hc ▸ countsByFreq_sorted ranks) _ h
      unfold pairGE at hge
      dsimp only at hge
      omega
  have hgf : g = f0 := le_antisymm hg_le hf0_le
  rw [hgf] at hc he1
  exact ⟨r, ctf, hc, he1, mem_sortedUniq.mp hrmem⟩

theorem rankAt_zero {ranks : List Nat} {f0 : Nat} {tf : List Nat}
    (hf : freqsOf ranks = f0 :: tf) :
    ranks.count (rankAt ranks 0) = f0 ∧ rankAt ranks 0 ∈ ranks := by
  obtain ⟨r0, ctf, hc, hcount, hmem⟩ := countsByFreq_head hf
  have hr : rankAt ranks 0 = r0 := by
    unfold rankAt
    rw [hc]
    rfl
  rw [hr]
  exact ⟨hcount, hmem⟩

theorem freqs_singleton {ranks : List Nat} {f0 : Nat}
    (hr : ranks.length = 5) (hf : freqsOf ranks = [f0]) : f0 = 5 := by
  have hlen : (sortedUniq ranks).length = 1 := by
    rw [← freqsOf_length, hf]
    rfl
  obtain ⟨r, hsu⟩ := List.length_eq_one.mp hlen
  have hcount : ranks.count r = 5 := by
    rw [← hr]
    apply List.count_eq_length.mpr
    intro b hb
    have hbm : b ∈ sortedUniq ranks := mem_sortedUniq.mpr hb
    rw [hsu] at hbm
    have hb2 : b = r := by simpa using hbm
    exact hb2.symm
  have hfr : freqsOf ranks = [ranks.count r] := by
    unfold freqsOf
    rw [hsu]
    rfl
  rw [hf] at hfr
  injection hfr with h1 h2
  omega

/-! ### Counting facts -/

theorem sum_map_add (l : List Nat) (f g : Nat → Nat) :
    (l.map fun x => f x + g x).sum = (l.map f).sum + (l.map g).sum := by
  induction l with
  | nil => rfl
  | cons x l ih =>
    simp only [List.map_cons, List.sum_cons, ih]
    omega

theorem sum_map_indicator (m : List Nat) (a : Nat) (hn : m.Nodup) :
    (m.map fun r => if a == r then 1 else 0).sum = if a ∈ m then 1 else 0 := by
  induction m with
  | nil => rfl
  | cons x m ih =>
    rw [List.nodup_cons] at hn
    simp only [List.map_cons, List.sum_cons, ih hn.2]
    by_cases hx : a = x
    · subst hx
      simp [hn.1]
    · simp only [List.mem_cons]
      by_cases hm : a ∈ m <;> simp [hx, hm]

theorem sum_map_count_dedup (l : List Nat) :
    (l.dedup.map fun r => l.count r).sum = l.length := by
  induction l with
  | nil => rfl
  | cons a l ih =>
    have hfun : (fun r => (a :: l).count r) =
        fun r => l.count r + if a == r then 1 else 0 :=
      funext fun r => List.count_cons r a l
    by_cases ha : a ∈ l
    · rw [List.dedup_cons_of_mem ha, hfun, sum_map_add, ih,
        sum_map_indicator _ _ (List.nodup_dedup l), if_pos (List.mem_dedup.mpr ha)]
      simp
    · rw [List.dedup_cons_of_not_mem ha]
      simp only [List.map_cons, List.sum_cons]
      rw [hfun]
      rw [sum_map_add, ih, sum_map_indicator _ _ (List.nodup_dedup l),
        if_neg (fun hc => ha (List.mem_dedup.mp hc))]
      have hz : l.count a = 0 := List.count_eq_zero.mpr ha
      simp [hz]
      omega

theorem sum_freqsOf (ranks : List Nat) : (freqsOf ranks).sum = ranks.length := by
  have h1 := (freqsOf_perm ranks).sum_eq
  have h2 : ((sortedUniq ranks).map fun r => ranks.count r).sum
      = (ranks.dedup.map fun r => ranks.count r).sum :=
    ((sortedUniq_perm_dedup ranks).map _).sum_eq
  rw [h1, h2, sum_map_count_dedup]

theorem freqsOf_pos {ranks : List Nat} {x : Nat} (hx : x ∈ freqsOf ranks) :
    1 ≤ x := by
  rw [(freqsOf_perm ranks).mem_iff] at hx
  obtain ⟨r, hr, he⟩ := List.mem_map.mp hx
  rw [← he]
  exact List.count_pos_iff.mpr (mem_sortedUniq.mp hr)

theorem exists_count_one {ranks : List Nat} {tf2 : List Nat}
    (hr : ranks.length = 5) (hf : freqsOf ranks = 2 :: 2 :: tf2) :
    ∃ x ∈ ranks, ranks.count x = 1 := by
  have hsum : (freqsOf ranks).sum = 5 := by rw [sum_freqsOf, hr]
  rw [hf] at hsum
  simp only [List.sum_cons] at hsum
  cases tf2 with
  | nil => simp at hsum
  | cons g rest =>
    have hg : 1 ≤ g := freqsOf_pos (by rw [hf]; simp)
    have hgs : g + rest.sum = 5 - 4 := by
      simp only [List.sum_cons] at hsum
      omega
    have hg1 : g = 1 := by omega
    have hgm : g ∈ freqsOf ranks := by rw [hf]; simp
    rw [(freqsOf_perm ranks).mem_iff] at hgm
    obtain ⟨r, hrm, hre⟩ := List.mem_map.mp hgm
    exact ⟨r, mem_sortedUniq.mp hrm, by rw [hre, hg1]⟩

theorem filter_ne_length (l : List Nat) (a : Nat) :
    (l.filter fun x => x ≠ a).length + l.count a = l.length := by
  induction l with
  | nil => rfl
  | cons y l ih =>
    rw [List.filter_cons, List.count_cons]
    by_cases hy : y = a
    · subst hy
      rw [if_neg (by simp), if_pos (by simp)]
      simp only [List.length_cons]
      omega
    · rw [if_pos (by simp [hy]), if_neg (by simp [hy])]
      simp only [List.length_cons]
      omega

theorem filter_ne_nonempty {ranks : List Nat} {a : Nat}
    (hcount : ranks.count a ≠ ranks.length) :
    (ranks.filter fun r => r ≠ a) ≠ [] := by
  intro hemp
  apply hcount
  apply List.count_eq_length.mpr
  intro b hb
  by_contra hne
  have hbm : b ∈ ranks.filter fun r => r ≠ a :=
    List.mem_filter.mpr ⟨hb, by
      simp only [ne_eq, decide_eq_true_eq]
      exact fun h => hne h.symm⟩
  rw [hemp] at hbm
  cases hbm

/-! ### Every 5-card evaluation returns a well-shaped score -/

theorem evalCore_shape {ranks suits : List Nat} (hr : ranks.length = 5) :
    ∃ s, evalCore ranks suits = some s ∧ ScoreShape s := by
  have hrne : ranks ≠ [] := by
    intro h
    rw [h] at hr
    cases hr
  obtain ⟨f0, tf, hf⟩ : ∃ f0 tf, freqsOf ranks = f0 :: tf := by
    cases hfq : freqsOf ranks with
    | nil =>
      exfalso
      have hlz : (sortedUniq ranks).length = 0 := by
        rw [← freqsOf_length, hfq]
        rfl
      obtain ⟨x, hx⟩ := List.exists_mem_of_ne_nil ranks hrne
      have hx2 : x ∈ sortedUniq ranks := mem_sortedUniq.mpr hx
      rw [List.eq_nil_of_length_eq_zero hlz] at hx2
      cases hx2
    | cons f0 tf => exact ⟨f0, tf, rfl⟩
  unfold evalCore
  by_cases hsf : suits.dedup.length = 1 ∧ (is_straight ranks).1 = true
  · rw [if_pos hsf]
    exact ⟨_, rfl, ScoreShape.sf _⟩
  · rw [if_neg hsf]
    simp only [hf]
    by_cases h4 : f0 = 4
    · rw [if_pos h4]
      obtain ⟨hcnt, hmem⟩ := rankAt_zero hf
      have hfil : (ranks.filter fun r => r ≠ rankAt ranks 0) ≠ [] := by
        apply filter_ne_nonempty
        rw [hcnt, hr]
        omega
      obtain ⟨m, hm⟩ := maxList_isSome hfil
      simp only [hm]
      exact ⟨_, rfl, ScoreShape.four _ _⟩
    · rw [if_neg h4]
      by_cases h3e : f0 = 3 ∧ tf = []
      · exfalso
        have : f0 = 5 := freqs_singleton hr (by rw [hf, h3e.2])
        omega
      · rw [if_neg h3e]
        by_cases h3f : f0 = 3 ∧ tf.headD 0 = 2
        · rw [if_pos h3f]
          exact ⟨_, rfl, ScoreShape.fh _ _⟩
        · rw [if_neg h3f]
          by_cases hfl : suits.dedup.length = 1
          · rw [if_pos hfl]
            refine ⟨_, rfl, ScoreShape.flush _ ?_⟩
            rw [sortDesc_length, hr]
          · rw [if_neg hfl]
            by_cases hst : (is_straight ranks).1 = true
            · rw [if_pos hst]
              exact ⟨_, rfl, ScoreShape.straight _⟩
            · rw [if_neg hst]
              by_cases h3 : f0 = 3
              · rw [if_pos h3]
                refine ⟨_, rfl, ScoreShape.three _ _ ?_⟩
                obtain ⟨hcnt, hmem⟩ := rankAt_zero hf
                have hfl2 := filter_ne_length ranks (rankAt ranks 0)
                rw [sortDesc_length]
                omega
              · rw [if_neg h3]
                by_cases h2e : f0 = 2 ∧ tf = []
                · exfalso
                  have : f0 = 5 := freqs_singleton hr (by rw [hf, h2e.2])
                  omega
                · rw [if_neg h2e]
                  by_cases h2f : f0 = 2 ∧ tf.headD 0 = 2
                  · rw [if_pos h2f]
                    obtain ⟨t0, tf2, htf⟩ : ∃ t0 tf2, tf = t0 :: tf2 := by
                      cases tf with
                      | nil => exact absurd ⟨h2f.1, rfl⟩ h2e
                      | cons t0 tf2 => exact ⟨t0, tf2, rfl⟩
                    have ht0 : t0 = 2 := by
                      have hh := h2f.2
                      rw [htf] at hh
                      simpa using hh
                    have hff : freqsOf ranks = 2 :: 2 :: tf2 := by
                      rw [hf, htf, h2f.1, ht0]
                    obtain ⟨x, hxm, hxc⟩ := exists_count_one hr hff
                    have hfil : (ranks.filter fun r => ranks.count r = 1) ≠ [] := by
                      intro hemp
                      have hxf : x ∈ ranks.filter fun r => ranks.count r = 1 :=
                        List.mem_filter.mpr ⟨hxm, by simp [hxc]⟩
                      rw [hemp] at hxf
                      cases hxf
                    obtain ⟨m, hm⟩ := maxList_isSome hfil
                    simp only [hm]
                    exact ⟨_, rfl, ScoreShape.twopair _ _ _⟩
                  · rw [if_neg h2f]
                    by_cases h2 : f0 = 2
                    · rw [if_pos h2]
                      refine ⟨_, rfl, ScoreShape.pair _ _ ?_⟩
                      obtain ⟨hcnt, hmem⟩ := rankAt_zero hf
                      have hfl2 := filter_ne_length ranks (rankAt ranks 0)
                      rw [sortDesc_length]
                      omega
                    · rw [if_neg h2]
                      refine ⟨_, rfl, ScoreShape.high _ ?_⟩
                      rw [sortDesc_length, hr]

theorem evaluate_5_shape {cards : List Card} (h5 : cards.length = 5) :
    ∃ s, evaluate_5 cards = some s ∧ ScoreShape s := by
  unfold evaluate_5
  exact evalCore_shape (by rw [List.length_map, h5])

/-! ### Permutation invariance of the evaluator -/

theorem is_straight_perm {r1 r2 : List Nat} (h : r1.Perm r2) :
    is_straight r1 = is_straight r2 := by
  unfold is_straight
  rw [sortedUniq_eq_of_perm h]

theorem countsByFreq_eq_of_perm {r1 r2 : List Nat} (h : r1.Perm r2) :
    countsByFreq r1 = countsByFreq r2 := by
  unfold countsByFreq
  rw [sortedUniq_eq_of_perm h]
  have hfn : (fun r => (r1.count r, r)) = fun r => (r2.count r, r) :=
    funext fun r => by rw [h.count_eq]
  rw [hfn]

theorem freqsOf_eq_of_perm {r1 r2 : List Nat} (h : r1.Perm r2) :
    freqsOf r1 = freqsOf r2 := by
  unfold freqsOf
  rw [sortedUniq_eq_of_perm h]
  have hfn : (fun r => r1.count r) = fun r => r2.count r :=
    funext fun r => by rw [h.count_eq]
  rw [hfn]

theorem rankAt_eq_of_perm {r1 r2 : List Nat} (h : r1.Perm r2) (i : Nat) :
    rankAt r1 i = rankAt r2 i := by
  unfold rankAt
  rw [countsByFreq_eq_of_perm h]

theorem evalCore_perm {r1 r2 s1 s2 : List Nat} (hr : r1.Perm r2) (hs : s1.Perm s2) :
    evalCore r1 s1 = evalCore r2 s2 := by
  have hcnt : ∀ n, (fun r => decide (r1.count r = n)) =
      fun r => decide (r2.count r = n) := by
    intro n
    funext r
    rw [hr.count_eq]
  have hdl : s1.dedup.length = s2.dedup.length := hs.dedup.length_eq
  have hst : is_straight r1 = is_straight r2 := is_straight_perm hr
  have hfq : freqsOf r1 = freqsOf r2 := freqsOf_eq_of_perm hr
  have hr0 : rankAt r1 0 = rankAt r2 0 := rankAt_eq_of_perm hr 0
  have hr1 : rankAt r1 1 = rankAt r2 1 := rankAt_eq_of_perm hr 1
  have hsd : sortDesc r1 = sortDesc r2 := sortDesc_eq_of_perm hr
  have hsu : sortedUniq r1 = sortedUniq r2 := sortedUniq_eq_of_perm hr
  have hmax1 : maxList (r1.filter fun r => r ≠ rankAt r1 0)
      = maxList (r2.filter fun r => r ≠ rankAt r2 0) := by
    rw [hr0]
    exact maxList_perm (hr.filter _)
  have hsdf : sortDesc (r1.filter fun r => r ≠ rankAt r1 0)
      = sortDesc (r2.filter fun r => r ≠ rankAt r2 0) := by
    rw [hr0]
    exact sortDesc_eq_of_perm (hr.filter _)
  have hmax2 : maxList (r1.filter fun r => r1.count r = 1)
      = maxList (r2.filter fun r => r2.count r = 1) := by
    rw [show (fun r => decide (r1.count r = 1)) = fun r => decide (r2.count r = 1)
      from hcnt 1]
    exact maxList_perm (hr.filter _)
  have hpr : (sortedUniq r1).filter (fun r => r1.count r = 2)
      = (sortedUniq r2).filter (fun r => r2.count r = 2) := by
    rw [hsu, show (fun r => decide (r1.count r = 2)) = fun r => decide (r2.count r = 2)
      from hcnt 2]
  unfold evalCore
  rw [hmax1, hsdf, hmax2, hpr, hdl, hst, hfq, hr0, hr1, hsd]

theorem evaluate_5_perm {c1 c2 : List Card} (h : c1.Perm c2) :
    evaluate_5 c1 = evaluate_5 c2 := by
  unfold evaluate_5
  exact evalCore_perm (h.map _) (h.map _)

/-- The leading element of a well-shaped score is an int category in 1..9. -/
theorem shape_category {s : Score} (h : ScoreShape s) :
    ∃ c rest, s = PyVal.int c :: rest ∧ 1 ≤ c ∧ c ≤ 9 := by
  cases h with
  | sf t => exact ⟨9, _, rfl, by omega, by omega⟩
  | four q k => exact ⟨8, _, rfl, by omega, by omega⟩
  | fh t p => exact ⟨7, _, rfl, by omega, by omega⟩
  | flush l hl => exact ⟨6, _, rfl, by omega, by omega⟩
  | straight t => exact ⟨5, _, rfl, by omega, by omega⟩
  | three t l hl => exact ⟨4, _, rfl, by omega, by omega⟩
  | twopair a b k => exact ⟨3, _, rfl, by omega, by omega⟩
  | pair p l hl => exact ⟨2, _, rfl, by omega, by omega⟩
  | high l hl => exact ⟨1, _, rfl, by omega, by omega⟩

/-! ### The sliding-window scan returns the lowest qualifying window -/

theorem windowScan_sound : ∀ {s : List Nat}, s.Sorted (· < ·) → ∀ {t : Nat},
    windowScan s = some t → ∃ b, t = b + 4 ∧ ∀ k ≤ 4, b + k ∈ s := by
  intro s
  induction s with
  | nil =>
    intro _ t hscan
    simp [windowScan] at hscan
  | cons a s' ih =>
    intro hsorted t hscan
    rcases s' with _ | ⟨b, _ | ⟨c, _ | ⟨d, _ | ⟨e, rest⟩⟩⟩⟩
    · simp [windowScan] at hscan
    · simp [windowScan] at hscan
    · simp [windowScan] at hscan
    · simp [windowScan] at hscan
    · simp only [windowScan] at hscan
      by_cases hw : e - a = 4
      · rw [if_pos hw] at hscan
        injection hscan with hte
        have hab : a < b := List.rel_of_sorted_cons hsorted b (by simp)
        have hs1 := hsorted.of_cons
        have hbc : b < c := List.rel_of_sorted_cons hs1 c (by simp)
        have hs2 := hs1.of_cons
        have hcd : c < d := List.rel_of_sorted_cons hs2 d (by simp)
        have hs3 := hs2.of_cons
        have hde : d < e := List.rel_of_sorted_cons hs3 e (by simp)
        refine ⟨a, by omega, ?_⟩
        intro k hk
        simp only [List.mem_cons]
        interval_cases k <;> omega
      · rw [if_neg hw] at hscan
        obtain ⟨b0, hbt, hmem⟩ := ih hsorted.of_cons hscan
        exact ⟨b0, hbt, fun k hk => List.mem_cons_of_mem a (hmem k hk)⟩

theorem sorted_peel {s : List Nat} (hs : s.Sorted (· < ·)) {v w : Nat}
    (hv : v ∈ s) (hlb : ∀ u ∈ s, w < u) (hvw : v = w + 1) :
    ∃ s2, s = v :: s2 := by
  cases s with
  | nil => cases hv
  | cons y s2 =>
    have hy : w < y := hlb y (List.mem_cons_self y s2)
    rcases List.mem_cons.mp hv with h | h
    · exact ⟨s2, by rw [h]⟩
    · have hyv : y < v := List.rel_of_sorted_cons hs v h
      omega

theorem windowScan_complete : ∀ {s : List Nat}, s.Sorted (· < ·) → ∀ {a : Nat},
    (∀ k ≤ 4, a + k ∈ s) → ∃ t, windowScan s = some t ∧ t ≤ a + 4 := by
  intro s
  induction s with
  | nil =>
    intro _ a hwin
    have h0 := hwin 0 (by omega)
    cases h0
  | cons x s' ih =>
    intro hsorted a hwin
    have ha : a ∈ x :: s' := by
      have h0 := hwin 0 (by omega)
      simpa using h0
    have hxa : x ≤ a := by
      rcases List.mem_cons.mp ha with h | h
      · omega
      · have := List.rel_of_sorted_cons hsorted a h
        omega
    by_cases hx : x = a
    · subst hx
      have hlb : ∀ u ∈ s', x < u := List.rel_of_sorted_cons hsorted
      have hmem1 : x + 1 ∈ s' := by
        rcases List.mem_cons.mp (hwin 1 (by omega)) with h | h
        · omega
        · exact h
      obtain ⟨s2, hs2⟩ := sorted_peel hsorted.of_cons hmem1 hlb rfl
      have hsort2 : s2.Sorted (· < ·) := (hs2 ▸ hsorted.of_cons).of_cons
      have hlb2 : ∀ u ∈ s2, x + 1 < u := by
        have := List.rel_of_sorted_cons (hs2 ▸ hsorted.of_cons)
        exact this
      have hmem2 : x + 2 ∈ s2 := by
        rcases List.mem_cons.mp (hwin 2 (by omega)) with h | h
        · omega
        · rw [hs2] at h
          rcases List.mem_cons.mp h with h2 | h2
          · omega
          · exact h2
      obtain ⟨s3, hs3⟩ := sorted_peel hsort2 hmem2 hlb2 (by omega)
      have hsort3 : s3.Sorted (· < ·) := (hs3 ▸ hsort2).of_cons
      have hlb3 : ∀ u ∈ s3, x + 2 < u := by
        have := List.rel_of_sorted_cons (hs3 ▸ hsort2)
        exact this
      have hmem3 : x + 3 ∈ s3 := by
        rcases List.mem_cons.mp (hwin 3 (by omega)) with h | h
        · omega
        · rw [hs2] at h
          rcases List.mem_cons.mp h with h2 | h2
          · omega
          · rw [hs3] at h2
            rcases List.mem_cons.mp h2 with h3 | h3
            · omega
            · exact h3
      obtain ⟨s4, hs4⟩ := sorted_peel hsort3 hmem3 hlb3 (by omega)
      have hsort4 : s4.Sorted (· < ·) := (hs4 ▸ hsort3).of_cons
      have hlb4 : ∀ u ∈ s4, x + 3 < u := by
        have := List.rel_of_sorted_cons (hs4 ▸ hsort3)
        exact this
      have hmem4 : x + 4 ∈ s4 := by
        rcases List.mem_cons.mp (hwin 4 (by omega)) with h | h
        · omega
        · rw [hs2] at h
          rcases List.mem_cons.mp h with h2 | h2
          · omega
          · rw [hs3] at h2
            rcases List.mem_cons.mp h2 with h3 | h3
            · omega
            · rw [hs4] at h3
              rcases List.mem_cons.mp h3 with h4 | h4
              · omega
              · exact h4
      obtain ⟨s5, hs5⟩ := sorted_peel hsort4 hmem4 hlb4 (by omega)
      refine ⟨x + 4, ?_, by omega⟩
      rw [hs2, hs3, hs4, hs5]
      simp only [windowScan]
      rw [if_pos (by omega)]
    · have hxlt : x < a := by omega
      have hwin' : ∀ k ≤ 4, a + k ∈ s' := by
        intro k hk
        rcases List.mem_cons.mp (hwin k hk) with h | h
        · omega
        · exact h
      obtain ⟨t, hsc, hle⟩ := ih hsorted.of_cons hwin'
      rcases hs' : s' with _ | ⟨b, _ | ⟨c, _ | ⟨d, _ | ⟨e, rest⟩⟩⟩⟩ <;>
        rw [hs'] at hsc hsorted
      · simp [windowScan] at hsc
      · simp [windowScan] at hsc
      · simp [windowScan] at hsc
      · simp [windowScan] at hsc
      · simp only [windowScan]
        by_cases hw : e - x = 4
        · rw [if_pos hw]
          have hxe : x < e := by
            have hem : e ∈ x :: b :: c :: d :: e :: rest := by simp
            rcases List.mem_cons.mp hem with h | h
            · omega
            · exact List.rel_of_sorted_cons hsorted e h
          exact ⟨e, rfl, by omega⟩
        · rw [if_neg hw]
          exact ⟨t, hsc, hle⟩

/-- On any rank list, when the distinct ranks admit a consecutive window of
five, `is_straight` reports the window whose start is least. -/
theorem is_straight_min_window {ranks : List Nat} {a : Nat}
    (hwin : winTop ranks a) (hmin : ∀ b < a, ¬ winTop ranks b) :
    is_straight ranks = (true, some (a + 4)) := by
  have hs := sortedUniq_sorted_lt ranks
  have hwin' : ∀ k ≤ 4, a + k ∈ sortedUniq ranks := fun k hk =>
    mem_sortedUniq.mpr (hwin k hk)
  obtain ⟨t, hsc, hle⟩ := windowScan_complete hs hwin'
  obtain ⟨b, hbt, hbmem⟩ := windowScan_sound hs hsc
  have hwb : winTop ranks b := fun k hk => mem_sortedUniq.mp (hbmem k hk)
  have hba : a ≤ b := by
    by_contra hlt
    exact hmin b (by omega) hwb
  have hta : t = a + 4 := by omega
  rw [hta] at hsc
  have hlen : ¬ (sortedUniq ranks).length < 5 := by
    intro hcon
    have hnd := sortedUniq_nodup ranks
    have hsub : [a, a + 1, a + 2, a + 3, a + 4] ⊆ sortedUniq ranks := by
      intro y hy
      simp only [List.mem_cons] at hy
      rcases hy with h | h | h | h | h | h
      · exact h ▸ hwin' 0 (by omega)
      · exact h ▸ hwin' 1 (by omega)
      · exact h ▸ hwin' 2 (by omega)
      · exact h ▸ hwin' 3 (by omega)
      · exact h ▸ hwin' 4 (by omega)
      · cases h
    have hnd5 : ([a, a + 1, a + 2, a + 3, a + 4] : List Nat).Nodup := by
      simp
    have hcard : ([a, a + 1, a + 2, a + 3, a + 4] : List Nat).length
        ≤ (sortedUniq ranks).length :=
      (List.subperm_of_subset hnd5 hsub).length_le
    have hlen5 : ([a, a + 1, a + 2, a + 3, a + 4] : List Nat).length = 5 := rfl
    omega
  simp only [is_straight]
  rw [if_neg hlen, hsc]

/-! ### Combinations enumerate exactly the fixed-length sublists -/

theorem mem_combinations {α : Type} : ∀ {xs : List α} {n : Nat} {l : List α},
    l ∈ combinations n xs ↔ l.Sublist xs ∧ l.length = n := by
  intro xs
  induction xs with
  | nil =>
    intro n l
    cases n with
    | zero =>
      simp only [combinations, List.mem_singleton]
      constructor
      · rintro rfl
        exact ⟨List.nil_sublist _, rfl⟩
      · rintro ⟨hs, hl⟩
        exact List.length_eq_zero.mp hl
    | succ n =>
      simp only [combinations, List.not_mem_nil, false_iff]
      rintro ⟨hs, hl⟩
      rw [List.sublist_nil] at hs
      subst hs
      cases hl
  | cons x xs ih =>
    intro n l
    cases n with
    | zero =>
      simp only [combinations, List.mem_singleton]
      constructor
      · rintro rfl
        exact ⟨List.nil_sublist _, rfl⟩
      · rintro ⟨hs, hl⟩
        exact List.length_eq_zero.mp hl
    | succ n =>
      simp only [combinations, List.mem_append, List.mem_map]
      constructor
      · rintro (⟨l2, hl2, rfl⟩ | h)
        · obtain ⟨hs, hlen⟩ := ih.mp hl2
          exact ⟨hs.cons₂ x, by simp [hlen]⟩
        · obtain ⟨hs, hlen⟩ := ih.mp h
          exact ⟨hs.cons x, hlen⟩
      · rintro ⟨hs, hlen⟩
        cases hs with
        | cons a h => exact Or.inr (ih.mpr ⟨h, hlen⟩)
        | cons₂ a h =>
          refine Or.inl ⟨_, ih.mpr ⟨h, ?_⟩, rfl⟩
          simpa using hlen

theorem combinations_ne_nil {α : Type} {xs : List α} {n : Nat} (h : n ≤ xs.length) :
    combinations n xs ≠ [] := by
  have hmem : xs.take n ∈ combinations n xs :=
    mem_combinations.mpr ⟨List.take_sublist n xs, by rw [List.length_take]; omega⟩
  intro hemp
  rw [hemp] at hmem
  cases hmem

/-! ### The best-hand fold keeps a running maximum -/

theorem bhFold_spec : ∀ (combos : List (List Card)) (acc : Option (Score × List Card)),
    (∀ c ∈ combos, ∃ s, evaluate_5 c = some s ∧ ScoreShape s) →
    (∀ b bc, acc = some (b, bc) → ScoreShape b) →
    ∃ r, bhFold combos acc = some r ∧
      (∀ b bc, acc = some (b, bc) →
        ∃ b2 bc2, r = some (b2, bc2) ∧ scoreLe b b2) ∧
      (∀ c ∈ combos, ∃ s b2 bc2, evaluate_5 c = some s ∧ r = some (b2, bc2) ∧
        scoreLe s b2) ∧
      (∀ b2 bc2, r = some (b2, bc2) → ScoreShape b2 ∧
        (acc = some (b2, bc2) ∨ (bc2 ∈ combos ∧ evaluate_5 bc2 = some b2))) := by
  intro combos
  induction combos with
  | nil =>
    intro acc hcombo hacc
    refine ⟨acc, rfl, ?_, ?_, ?_⟩
    · intro b bc h
      exact ⟨b, bc, h, scoreLe_refl b⟩
    · intro c hc
      cases hc
    · intro b2 bc2 h
      exact ⟨hacc _ _ h, Or.inl h⟩
  | cons combo rest ih =>
    intro acc hcombo hacc
    obtain ⟨s, hs, hshape⟩ := hcombo combo (List.mem_cons_self _ _)
    cases acc with
    | none =>
      obtain ⟨r, hr, hacc2, hrest, horig⟩ := ih (some (s, combo))
        (fun c hc => hcombo c (List.mem_cons_of_mem _ hc))
        (by
          intro b bc h
          injection h with h2
          have hb : b = s := (congrArg Prod.fst h2).symm
          rw [hb]
          exact hshape)
      refine ⟨r, ?_, ?_, ?_, ?_⟩
      · show bhFold (combo :: rest) none = some r
        simp only [bhFold, hs]
        exact hr
      · intro b bc h
        cases h
      · intro c hc
        rcases List.mem_cons.mp hc with rfl | hc2
        · obtain ⟨b2, bc2, hr2, hle⟩ := hacc2 s c rfl
          exact ⟨s, b2, bc2, hs, hr2, hle⟩
        · exact hrest c hc2
      · intro b2 bc2 h
        obtain ⟨hsh, horg⟩ := horig b2 bc2 h
        refine ⟨hsh, Or.inr ?_⟩
        rcases horg with heq | ⟨hin, hev⟩
        · injection heq with heq2
          have hb : s = b2 := congrArg Prod.fst heq2
          have hcc : combo = bc2 := congrArg Prod.snd heq2
          refine ⟨hcc ▸ List.mem_cons_self _ _, ?_⟩
          rw [← hcc, ← hb]
          exact hs
        · exact ⟨List.mem_cons_of_mem _ hin, hev⟩
    | some bpair =>
      obtain ⟨b, bc⟩ := bpair
      have hbshape : ScoreShape b := hacc b bc rfl
      have htot := shape_total hshape hbshape
      obtain ⟨o, ho⟩ := Option.isSome_iff_exists.mp htot
      have keep : scoreLe s b →
          bhFold (combo :: rest) (some (b, bc)) = bhFold rest (some (b, bc)) →
          ∃ r, bhFold (combo :: rest) (some (b, bc)) = some r ∧
            (∀ b0 bc0, some (b, bc) = some (b0, bc0) →
              ∃ b2 bc2, r = some (b2, bc2) ∧ scoreLe b0 b2) ∧
            (∀ c ∈ combo :: rest, ∃ s2 b2 bc2, evaluate_5 c = some s2 ∧
              r = some (b2, bc2) ∧ scoreLe s2 b2) ∧
            (∀ b2 bc2, r = some (b2, bc2) → ScoreShape b2 ∧
              (some (b, bc) = some (b2, bc2) ∨
                (bc2 ∈ combo :: rest ∧ evaluate_5 bc2 = some b2))) := by
        intro hsb hred
        obtain ⟨r, hr, hacc2, hrest, horig⟩ := ih (some (b, bc))
          (fun c hc => hcombo c (List.mem_cons_of_mem _ hc))
          (by
            intro b0 bc0 h
            injection h with h2
            have hb : b0 = b := (congrArg Prod.fst h2).symm
            rw [hb]
            exact hbshape)
        refine ⟨r, by rw [hred]; exact hr, ?_, ?_, ?_⟩
        · intro b0 bc0 h
          injection h with h2
          have hb : b0 = b := (congrArg Prod.fst h2).symm
          rw [hb]
          exact hacc2 b bc rfl
        · intro c hc
          rcases List.mem_cons.mp hc with rfl | hc2
          · obtain ⟨b2, bc2, hr2, hle⟩ := hacc2 b bc rfl
            exact ⟨s, b2, bc2, hs, hr2, scoreLe_trans hsb hle⟩
          · exact hrest c hc2
        · intro b2 bc2 h
          obtain ⟨hsh, horg⟩ := horig b2 bc2 h
          refine ⟨hsh, ?_⟩
          rcases horg with heq | ⟨hin, hev⟩
          · exact Or.inl heq
          · exact Or.inr ⟨List.mem_cons_of_mem _ hin, hev⟩
      cases o with
      | lt => exact keep (Or.inl ho) (by simp only [bhFold, hs, ho])
      | eq => exact keep (Or.inr ho) (by simp only [bhFold, hs, ho])
      | gt =>
        obtain ⟨r, hr, hacc2, hrest, horig⟩ := ih (some (s, combo))
          (fun c hc => hcombo c (List.mem_cons_of_mem _ hc))
          (by
            intro b0 bc0 h
            injection h with h2
            have hb : b0 = s := (congrArg Prod.fst h2).symm
            rw [hb]
            exact hshape)
        refine ⟨r, ?_, ?_, ?_, ?_⟩
        · show bhFold (combo :: rest) (some (b, bc)) = some r
          simp only [bhFold, hs, ho]
          exact hr
        · intro b0 bc0 h
          injection h with h2
          have hb : b0 = b := (congrArg Prod.fst h2).symm
          obtain ⟨b2, bc2, hr2, hle⟩ := hacc2 s combo rfl
          refine ⟨b2, bc2, hr2, ?_⟩
          rw [hb]
          exact scoreLe_trans (scoreLe_of_gt ho) hle
        · intro c hc
          rcases List.mem_cons.mp hc with rfl | hc2
          · obtain ⟨b2, bc2, hr2, hle⟩ := hacc2 s c rfl
            exact ⟨s, b2, bc2, hs, hr2, hle⟩
          · exact hrest c hc2
        · intro b2 bc2 h
          obtain ⟨hsh, horg⟩ := horig b2 bc2 h
          refine ⟨hsh, Or.inr ?_⟩
          rcases horg with heq | ⟨hin, hev⟩
          · injection heq with heq2
            have hb : s = b2 := congrArg Prod.fst heq2
            have hcc : combo = bc2 := congrArg Prod.snd heq2
            refine ⟨hcc ▸ List.mem_cons_self _ _, ?_⟩
            rw [← hcc, ← hb]
            exact hs
          · exact ⟨List.mem_cons_of_mem _ hin, hev⟩

/-- Specification of `best_hand` on any pool of at least five cards: it
returns, without raising, a score and a five-card combination from the pool
consistent with the score, and the score dominates every five-card sublist. -/
theorem best_hand_spec {pool : List Card} (h5 : 5 ≤ pool.length) :
    ∃ b bc, best_hand pool = some (some (b, bc)) ∧
      ScoreShape b ∧ bc.Sublist pool ∧ bc.length = 5 ∧ evaluate_5 bc = some b ∧
      ∀ l, l.Sublist pool → l.length = 5 →
        ∃ s, evaluate_5 l = some s ∧ scoreLe s b := by
  have hcombo : ∀ c ∈ combinations 5 pool,
      ∃ s, evaluate_5 c = some s ∧ ScoreShape s := by
    intro c hc
    obtain ⟨hsub, hlen⟩ := mem_combinations.mp hc
    exact evaluate_5_shape hlen
  obtain ⟨r, hr, hacc2, hrest, horig⟩ := bhFold_spec (combinations 5 pool) none
    hcombo (by intro b bc h; cases h)
  obtain ⟨c0, hc0⟩ : ∃ c, c ∈ combinations 5 pool := by
    cases h : combinations 5 pool with
    | nil => exact absurd h (combinations_ne_nil h5)
    | cons c cs => exact ⟨c, h ▸ List.mem_cons_self c cs⟩
  obtain ⟨s0, b2, bc2, hs0, hr2, hle0⟩ := hrest c0 hc0
  obtain ⟨hshape2, horg⟩ := horig b2 bc2 hr2
  rcases horg with heq | ⟨hin, hev⟩
  · cases heq
  · obtain ⟨hsub, hlen⟩ := mem_combinations.mp hin
    refine ⟨b2, bc2, ?_, hshape2, hsub, hlen, hev, ?_⟩
    · show bhFold (combinations 5 pool) none = some (some (b2, bc2))
      rw [hr, hr2]
    · intro l hls hl5
      have hlin : l ∈ combinations 5 pool := mem_combinations.mpr ⟨hls, hl5⟩
      obtain ⟨s, b3, bc3, hsv, hr3, hlev⟩ := hrest l hlin
      rw [hr2] at hr3
      injection hr3 with hr3
      have hb32 : b3 = b2 := (congrArg Prod.fst hr3).symm
      exact ⟨s, hsv, hb32 ▸ hlev⟩

/-! ### Python `max` over scores and the winner filter -/

theorem pyMaxFold_spec : ∀ (xs : List Score) (cur : Score), ScoreShape cur →
    (∀ x ∈ xs, ScoreShape x) →
    ∃ m, pyMaxFold cur xs = some m ∧ ScoreShape m ∧ scoreLe cur m ∧
      (∀ x ∈ xs, scoreLe x m) ∧ (m = cur ∨ m ∈ xs) := by
  intro xs
  induction xs with
  | nil =>
    intro cur hc _
    exact ⟨cur, rfl, hc, scoreLe_refl cur,
      fun x hx => absurd hx (List.not_mem_nil x), Or.inl rfl⟩
  | cons x xs ih =>
    intro cur hc hxs
    have hxshape := hxs x (List.mem_cons_self _ _)
    obtain ⟨o, ho⟩ := Option.isSome_iff_exists.mp (shape_total hxshape hc)
    have keep : scoreLe x cur → pyMaxFold cur (x :: xs) = pyMaxFold cur xs →
        ∃ m, pyMaxFold cur (x :: xs) = some m ∧ ScoreShape m ∧ scoreLe cur m ∧
          (∀ y ∈ x :: xs, scoreLe y m) ∧ (m = cur ∨ m ∈ x :: xs) := by
      intro hxc hred
      obtain ⟨m, hm, hms, hle1, hle2, hor⟩ := ih cur hc
        (fun y hy => hxs y (List.mem_cons_of_mem _ hy))
      refine ⟨m, by rw [hred]; exact hm, hms, hle1, ?_, ?_⟩
      · intro y hy
        rcases List.mem_cons.mp hy with rfl | hy2
        · exact scoreLe_trans hxc hle1
        · exact hle2 y hy2
      · rcases hor with h | h
        · exact Or.inl h
        · exact Or.inr (List.mem_cons_of_mem _ h)
    cases o with
    | lt => exact keep (Or.inl ho) (by simp only [pyMaxFold, ho])
    | eq => exact keep (Or.inr ho) (by simp only [pyMaxFold, ho])
    | gt =>
      obtain ⟨m, hm, hms, hle1, hle2, hor⟩ := ih x hxshape
        (fun y hy => hxs y (List.mem_cons_of_mem _ hy))
      refine ⟨m, ?_, hms, ?_, ?_, ?_⟩
      · simp only [pyMaxFold, ho]
        exact hm
      · exact scoreLe_trans (scoreLe_of_gt ho) hle1
      · intro y hy
        rcases List.mem_cons.mp hy with rfl | hy2
        · exact hle1
        · exact hle2 y hy2
      · rcases hor with h | h
        · exact Or.inr (h ▸ List.mem_cons_self _ _)
        · exact Or.inr (List.mem_cons_of_mem _ h)

theorem pyMax_spec {scores : List Score} (hne : scores ≠ [])
    (hsh : ∀ x ∈ scores, ScoreShape x) :
    ∃ m, pyMax scores = some m ∧ m ∈ scores ∧ ∀ x ∈ scores, scoreLe x m := by
  cases scores with
  | nil => exact absurd rfl hne
  | cons x xs =>
    obtain ⟨m, hm, hms, hle1, hle2, hor⟩ := pyMaxFold_spec xs x
      (hsh x (List.mem_cons_self _ _))
      (fun y hy => hsh y (List.mem_cons_of_mem _ hy))
    refine ⟨m, hm, ?_, ?_⟩
    · rcases hor with h | h
      · exact h ▸ List.mem_cons_self _ _
      · exact List.mem_cons_of_mem _ h
    · intro y hy
      rcases List.mem_cons.mp hy with rfl | h
      · exact hle1
      · exact hle2 y h

theorem winnersOf_spec {results : List (Nat × Score)} (hne : results ≠ [])
    (hsh : ∀ pr ∈ results, ScoreShape pr.2) :
    ∃ best, winnersOf results =
        some ((results.filter fun pr => pr.2 = best).map Prod.fst) ∧
      best ∈ results.map Prod.snd ∧
      (∀ s ∈ results.map Prod.snd, scoreLe s best) ∧
      ∀ p, p ∈ (results.filter fun pr => pr.2 = best).map Prod.fst ↔
        ∃ s, (p, s) ∈ results ∧ ∀ s2 ∈ results.map Prod.snd, scoreLe s2 s := by
  have hmne : results.map Prod.snd ≠ [] := by
    intro h
    exact hne (List.map_eq_nil_iff.mp h)
  have hsh2 : ∀ x ∈ results.map Prod.snd, ScoreShape x := by
    intro x hx
    obtain ⟨pr, hpr, he⟩ := List.mem_map.mp hx
    exact he ▸ hsh pr hpr
  obtain ⟨best, hbest, hbm, hble⟩ := pyMax_spec hmne hsh2
  refine ⟨best, ?_, hbm, hble, ?_⟩
  · simp only [winnersOf, hbest]
  · intro p
    constructor
    · intro hp
      obtain ⟨pr, hpr, he⟩ := List.mem_map.mp hp
      obtain ⟨hprm, hpred⟩ := List.mem_filter.mp hpr
      have hpe : pr.2 = best := by simpa using hpred
      refine ⟨pr.2, ?_, ?_⟩
      · have hpeta : (p, pr.2) = pr := by
          rw [← he]
        exact hpeta ▸ hprm
      · rw [hpe]
        exact hble
    · rintro ⟨s, hps, hsle⟩
      have h1 : scoreLe s best := hble s (List.mem_map.mpr ⟨(p, s), hps, rfl⟩)
      have h2 : scoreLe best s := hsle best hbm
      have hse : s = best := scoreLe_antisymm h1 h2
      apply List.mem_map.mpr
      refine ⟨(p, s), List.mem_filter.mpr ⟨hps, ?_⟩, rfl⟩
      simp [hse]

/-! ### Claim theorems -/

theorem combinations_nil_of_short {α : Type} {xs : List α} {n : Nat}
    (h : xs.length < n) : combinations n xs = [] := by
  cases hc : combinations n xs with
  | nil => rfl
  | cons c cs =>
    have hmem : c ∈ combinations n xs := hc ▸ List.mem_cons_self c cs
    obtain ⟨hs, hl⟩ := mem_combinations.mp hmem
    have := hs.length_le
    omega

/-- C1 counterexample: on the rank list [2,3,4,5,6,7] (6 distinct values,
two qualifying windows with tops 6 and 7), `is_straight` returns top 6, the
lowest window top, not the highest (7): the window starting at 3 exists yet
its top 7 is not returned. -/
theorem c1_counterexample :
    is_straight [2, 3, 4, 5, 6, 7] = (true, some 6) ∧
    winTop [2, 3, 4, 5, 6, 7] 3 ∧
    5 < ([2, 3, 4, 5, 6, 7] : List Nat).dedup.length ∧
    (6 : Nat) ≠ 3 + 4 := by
  refine ⟨?_, ?_, ?_, ?_⟩ <;> decide

/-- C1 (amended): for every rank list with more than 5 distinct values in
which at least one window of 5 consecutive distinct ranks exists,
`is_straight` returns the single LOWEST straight top among all such windows
(the top of the window with the least start), falling back to the wheel only
when no consecutive window of 5 exists. -/
theorem c1_lowest_window {ranks : List Nat} {a : Nat}
    (hdist : 5 < ranks.dedup.length) (hwin : winTop ranks a)
    (hmin : ∀ b < a, ¬ winTop ranks b) :
    is_straight ranks = (true, some (a + 4)) :=
  is_straight_min_window hwin hmin

theorem c1_lowest_window_witness :
    is_straight [2, 3, 4, 5, 6, 7] = (true, some (2 + 4)) :=
  c1_lowest_window (by decide) (by decide) (by decide)

/-- C2 counterexample: with four cards, `evaluate_5` silently returns a
degraded High-Card score instead of signalling an error, and `best_hand`
silently returns Python `(None, None)` (embedded as `some none`) instead of
raising. -/
theorem c2_counterexample :
    evaluate_5 [⟨2, 0⟩, ⟨7, 1⟩, ⟨5, 2⟩, ⟨9, 3⟩] = some [I 1, L [9, 7, 5, 2]] ∧
    best_hand [⟨2, 0⟩, ⟨7, 1⟩, ⟨5, 2⟩, ⟨9, 3⟩] = some none := by
  constructor <;> rfl

/-- C2 (amended): the engine does not fail fast on short input: `best_hand`
on fewer than 5 cards returns Python `(None, None)` without raising, and
`evaluate_5` on other-than-5 cards can silently return a degraded score
(see the counterexample); only special cases such as the empty list raise. -/
theorem c2_no_fail_fast {cards : List Card} (h : cards.length < 5) :
    best_hand cards = some none := by
  unfold best_hand
  rw [combinations_nil_of_short h]
  rfl

theorem c2_no_fail_fast_witness : best_hand [⟨2, 0⟩, ⟨7, 1⟩] = some none :=
  c2_no_fail_fast (by decide)

/-- C3: over any pool of 7 distinct cards, the score returned by `best_hand`
is greater than or equal (under Python tuple comparison) to the score
`evaluate_5` gives every individual 5-card subset of the pool. -/
theorem c3_best_hand_maximal {pool : List Card} (hnd : pool.Nodup)
    (h7 : pool.length = 7) :
    ∃ b bc, best_hand pool = some (some (b, bc)) ∧
      ∀ l, l.Sublist pool → l.length = 5 →
        ∃ s, evaluate_5 l = some s ∧ scoreLe s b := by
  obtain ⟨b, bc, hbh, _, _, _, _, hmax⟩ :=
    best_hand_spec (show 5 ≤ pool.length by omega)
  exact ⟨b, bc, hbh, hmax⟩

theorem c3_best_hand_maximal_witness :
    ∃ b bc, best_hand [⟨2, 0⟩, ⟨3, 1⟩, ⟨5, 2⟩, ⟨7, 3⟩, ⟨9, 0⟩, ⟨11, 1⟩, ⟨13, 2⟩]
        = some (some (b, bc)) ∧
      ∀ l, l.Sublist [⟨2, 0⟩, ⟨3, 1⟩, ⟨5, 2⟩, ⟨7, 3⟩, ⟨9, 0⟩, ⟨11, 1⟩, ⟨13, 2⟩] →
        l.length = 5 → ∃ s, evaluate_5 l = some s ∧ scoreLe s b :=
  c3_best_hand_maximal (by decide) (by decide)

/-- C4: given every player's score, the showdown comparator returns exactly
the players whose score equals the maximum (all ties reported), listed in
the players' insertion order via a filter over the original list. -/
theorem c4_showdown_winners {results : List (Nat × Score)} (hne : results ≠ [])
    (hsh : ∀ pr ∈ results, ScoreShape pr.2) :
    ∃ best, winnersOf results =
        some ((results.filter fun pr => pr.2 = best).map Prod.fst) ∧
      best ∈ results.map Prod.snd ∧
      (∀ s ∈ results.map Prod.snd, scoreLe s best) ∧
      ∀ p, p ∈ (results.filter fun pr => pr.2 = best).map Prod.fst ↔
        ∃ s, (p, s) ∈ results ∧ ∀ s2 ∈ results.map Prod.snd, scoreLe s2 s :=
  winnersOf_spec hne hsh

theorem c4_showdown_winners_witness :
    ∃ best, winnersOf [(1, [I 7, I 14, I 13]), (2, [I 6, L [14, 12, 9, 6, 3]]),
        (3, [I 7, I 14, I 13])] =
        some (([(1, [I 7, I 14, I 13]), (2, [I 6, L [14, 12, 9, 6, 3]]),
          (3, [I 7, I 14, I 13])].filter fun pr => pr.2 = best).map Prod.fst) ∧
      best ∈ [(1, [I 7, I 14, I 13]), (2, [I 6, L [14, 12, 9, 6, 3]]),
        (3, [I 7, I 14, I 13])].map Prod.snd ∧
      (∀ s ∈ [(1, [I 7, I 14, I 13]), (2, [I 6, L [14, 12, 9, 6, 3]]),
        (3, [I 7, I 14, I 13])].map Prod.snd, scoreLe s best) ∧
      ∀ p, p ∈ ([(1, [I 7, I 14, I 13]), (2, [I 6, L [14, 12, 9, 6, 3]]),
          (3, [I 7, I 14, I 13])].filter fun pr => pr.2 = best).map Prod.fst ↔
        ∃ s, (p, s) ∈ [(1, [I 7, I 14, I 13]), (2, [I 6, L [14, 12, 9, 6, 3]]),
          (3, [I 7, I 14, I 13])] ∧
          ∀ s2 ∈ [(1, [I 7, I 14, I 13]), (2, [I 6, L [14, 12, 9, 6, 3]]),
            (3, [I 7, I 14, I 13])].map Prod.snd, scoreLe s2 s :=
  c4_showdown_winners (by decide) (by
    intro pr hpr
    rcases List.mem_cons.mp hpr with rfl | hpr
    · exact ScoreShape.fh 14 13
    · rcases List.mem_cons.mp hpr with rfl | hpr
      · exact ScoreShape.flush _ rfl
      · rcases List.mem_cons.mp hpr with rfl | hpr
        · exact ScoreShape.fh 14 13
        · cases hpr)

/-- C5: straight detection test vectors: the wheel {14,2,3,4,5} is a
straight with top 5, {10,...,14} is a straight with top 14, and the
multiset {2,2,3,4,5} with only four distinct ranks is no straight. -/
theorem c5_straight_vectors :
    is_straight [14, 2, 3, 4, 5] = (true, some 5) ∧
    is_straight [10, 11, 12, 13, 14] = (true, some 14) ∧
    is_straight [2, 2, 3, 4, 5] = (false, none) := by
  refine ⟨?_, ?_, ?_⟩ <;> rfl

/-- C6: on every set of exactly 5 distinct cards, `evaluate_5` returns a
score whose category is one of 1..9, and evaluating any permutation of the
same cards returns an identical score. -/
theorem c6_category_and_order_independence {cards cards2 : List Card}
    (h5 : cards.length = 5) (hnd : cards.Nodup) (hperm : cards2.Perm cards) :
    (∃ s c rest, evaluate_5 cards = some s ∧ s = PyVal.int c :: rest ∧
      1 ≤ c ∧ c ≤ 9) ∧
    evaluate_5 cards2 = evaluate_5 cards := by
  obtain ⟨s, hs, hshape⟩ := evaluate_5_shape h5
  obtain ⟨c, rest, hsc, hc1, hc9⟩ := shape_category hshape
  exact ⟨⟨s, c, rest, hs, hsc, hc1, hc9⟩, evaluate_5_perm hperm⟩

theorem c6_category_and_order_independence_witness :
    (∃ s c rest,
      evaluate_5 [⟨14, 0⟩, ⟨13, 1⟩, ⟨9, 2⟩, ⟨5, 3⟩, ⟨2, 0⟩] = some s ∧
      s = PyVal.int c :: rest ∧ 1 ≤ c ∧ c ≤ 9) ∧
    evaluate_5 [⟨13, 1⟩, ⟨14, 0⟩, ⟨9, 2⟩, ⟨5, 3⟩, ⟨2, 0⟩] =
      evaluate_5 [⟨14, 0⟩, ⟨13, 1⟩, ⟨9, 2⟩, ⟨5, 3⟩, ⟨2, 0⟩] :=
  c6_category_and_order_independence (by decide) (by decide)
    (List.Perm.swap _ _ _)

/-- C7: on the 7-card pool A-spades, A-hearts (hole) with A-diamonds,
K-clubs, K-hearts, 2-spades, 3-diamonds (community), `best_hand` returns a
Full House, Aces over Kings, with score (7, 14, 13). -/
theorem c7_full_house_scenario :
    best_hand [⟨14, 0⟩, ⟨14, 1⟩, ⟨14, 2⟩, ⟨13, 3⟩, ⟨13, 1⟩, ⟨2, 0⟩, ⟨3, 2⟩] =
      some (some ([I 7, I 14, I 13],
        [⟨14, 0⟩, ⟨14, 1⟩, ⟨14, 2⟩, ⟨13, 3⟩, ⟨13, 1⟩])) := by
  rfl

/-- C8: the score ordering respects the fixed category order: every 5-card
Full House strictly beats every 5-card Flush regardless of the ranks
involved, and every 5-card Straight Flush (the wheel with tie-break 5
included) strictly beats every 5-card Four of a Kind. -/
theorem c8_category_dominance {c1 c2 c3 c4 : List Card} {s1 s2 s3 s4 : Score}
    (h1 : c1.length = 5) (h2 : c2.length = 5)
    (h3 : c3.length = 5) (h4 : c4.length = 5)
    (he1 : evaluate_5 c1 = some s1) (he2 : evaluate_5 c2 = some s2)
    (he3 : evaluate_5 c3 = some s3) (he4 : evaluate_5 c4 = some s4)
    (hc1 : s1.headD (I 0) = I 7) (hc2 : s2.headD (I 0) = I 6)
    (hc3 : s3.headD (I 0) = I 9) (hc4 : s4.headD (I 0) = I 8) :
    tupleCmp s2 s1 = some .lt ∧ tupleCmp s3 s4 = some .gt := by
  obtain ⟨s1', hs1', hsh1⟩ := evaluate_5_shape h1
  rw [he1] at hs1'
  injection hs1' with hs1'
  subst hs1'
  obtain ⟨s2', hs2', hsh2⟩ := evaluate_5_shape h2
  rw [he2] at hs2'
  injection hs2' with hs2'
  subst hs2'
  obtain ⟨s3', hs3', hsh3⟩ := evaluate_5_shape h3
  rw [he3] at hs3'
  injection hs3' with hs3'
  subst hs3'
  obtain ⟨s4', hs4', hsh4⟩ := evaluate_5_shape h4
  rw [he4] at hs4'
  injection hs4' with hs4'
  subst hs4'
  cases hsh1 <;> simp [I] at hc1
  cases hsh2 <;> simp [I] at hc2
  cases hsh3 <;> simp [I] at hc3
  cases hsh4 <;> simp [I] at hc4
  exact ⟨rfl, rfl⟩

theorem c8_category_dominance_witness :
    tupleCmp [I 6, L [13, 11, 9, 5, 2]] [I 7, I 14, I 13] = some .lt ∧
    tupleCmp [I 9, I 5] [I 8, I 2, I 11] = some .gt :=
  c8_category_dominance
    (show ([⟨14, 0⟩, ⟨14, 1⟩, ⟨14, 2⟩, ⟨13, 3⟩, ⟨13, 1⟩] : List Card).length = 5
      by decide)
    (show ([⟨2, 0⟩, ⟨5, 0⟩, ⟨9, 0⟩, ⟨11, 0⟩, ⟨13, 0⟩] : List Card).length = 5
      by decide)
    (show ([⟨14, 0⟩, ⟨2, 0⟩, ⟨3, 0⟩, ⟨4, 0⟩, ⟨5, 0⟩] : List Card).length = 5
      by decide)
    (show ([⟨2, 0⟩, ⟨2, 1⟩, ⟨2, 2⟩, ⟨2, 3⟩, ⟨11, 1⟩] : List Card).length = 5
      by decide)
    (show evaluate_5 [⟨14, 0⟩, ⟨14, 1⟩, ⟨14, 2⟩, ⟨13, 3⟩, ⟨13, 1⟩]
      = some [I 7, I 14, I 13] from rfl)
    (show evaluate_5 [⟨2, 0⟩, ⟨5, 0⟩, ⟨9, 0⟩, ⟨11, 0⟩, ⟨13, 0⟩]
      = some [I 6, L [13, 11, 9, 5, 2]] from rfl)
    (show evaluate_5 [⟨14, 0⟩, ⟨2, 0⟩, ⟨3, 0⟩, ⟨4, 0⟩, ⟨5, 0⟩]
      = some [I 9, I 5] from rfl)
    (show evaluate_5 [⟨2, 0⟩, ⟨2, 1⟩, ⟨2, 2⟩, ⟨2, 3⟩, ⟨11, 1⟩]
      = some [I 8, I 2, I 11] from rfl)
    (by rfl) (by rfl) (by rfl) (by rfl)

/-- C9: for every pool of at least 5 cards, `best_hand` returns a pair in
which the combination is a 5-card subset of the pool and evaluating that
combination yields exactly the returned score. -/
theorem c9_best_hand_consistent {pool : List Card} (h5 : 5 ≤ pool.length) :
    ∃ b bc, best_hand pool = some (some (b, bc)) ∧
      bc.Sublist pool ∧ bc.length = 5 ∧ evaluate_5 bc = some b := by
  obtain ⟨b, bc, hbh, _, hsub, hlen, hev, _⟩ := best_hand_spec h5
  exact ⟨b, bc, hbh, hsub, hlen, hev⟩

theorem c9_best_hand_consistent_witness :
    ∃ b bc, best_hand [⟨4, 0⟩, ⟨4, 1⟩, ⟨6, 2⟩, ⟨6, 3⟩, ⟨10, 0⟩, ⟨12, 1⟩, ⟨14, 2⟩]
        = some (some (b, bc)) ∧
      bc.Sublist [⟨4, 0⟩, ⟨4, 1⟩, ⟨6, 2⟩, ⟨6, 3⟩, ⟨10, 0⟩, ⟨12, 1⟩, ⟨14, 2⟩] ∧
      bc.length = 5 ∧ evaluate_5 bc = some b :=
  c9_best_hand_consistent (by decide)

/-- C10: every score `evaluate_5` produces on 5 cards has one of the nine
fixed shapes determined by its category (with the list elements' lengths
pinned per category), so Python comparison of any two such results is
well-defined and total. -/
theorem c10_score_shapes_total {c1 c2 : List Card}
    (h1 : c1.length = 5) (h2 : c2.length = 5) :
    ∃ s1 s2, evaluate_5 c1 = some s1 ∧ evaluate_5 c2 = some s2 ∧
      ScoreShape s1 ∧ ScoreShape s2 ∧ (tupleCmp s1 s2).isSome = true := by
  obtain ⟨s1, hs1, hsh1⟩ := evaluate_5_shape h1
  obtain ⟨s2, hs2, hsh2⟩ := evaluate_5_shape h2
  exact ⟨s1, s2, hs1, hs2, hsh1, hsh2, shape_total hsh1 hsh2⟩

theorem c10_score_shapes_total_witness :
    ∃ s1 s2, evaluate_5 [⟨14, 0⟩, ⟨14, 1⟩, ⟨14, 2⟩, ⟨13, 3⟩, ⟨13, 1⟩] = some s1 ∧
      evaluate_5 [⟨2, 0⟩, ⟨5, 0⟩, ⟨9, 0⟩, ⟨11, 0⟩, ⟨13, 0⟩] = some s2 ∧
      ScoreShape s1 ∧ ScoreShape s2 ∧ (tupleCmp s1 s2).isSome = true :=
  c10_score_shapes_total (by decide) (by decide)
